import Mathlib

/-!
Verification of the tree data structures in `gwenphalan/data-structures`
(`src/DataStructures/Tree.ts` and the `BinaryTree` class).

The TypeScript classes are shallowly embedded in namespace `DS`:

* `DS.Tree α` mirrors `class Tree<T>`: a `value: T` plus a list of
  nullable children (`children: (Tree<T> | null)[]`); the TS `null`
  is `Option.none`.
* `DS.BTree α` mirrors a `BinaryTree<T> | null` reference: `BTree.nil`
  is the TS `null`, and `BTree.node value left right` is a `BinaryTree`
  object whose inherited `children` array is `[left, right]` (set by the
  `BinaryTree` constructor).
* Thrown exceptions are modelled with `Except String`.
* Mutating methods are modelled as functions returning the new value.
* The mutable `parent` back-reference of `BinaryTree` cannot live inside
  a purely inductive tree (it makes the reference graph cyclic), so the
  relevant constructor/setter code is additionally modelled on an
  explicit heap of numbered node records (`DS.BNode`, `DS.construct`,
  `DS.setLeft`, `DS.setRight`).
-/

namespace DS

/-- Mirrors `class Tree<T>`: `value: T; children: (Tree<T> | null)[]`. -/
inductive Tree (α : Type) : Type where
  | mk (value : α) (children : List (Option (Tree α)))

namespace Tree

/-- Field access `this.value`. -/
def value : Tree α → α
  | .mk v _ => v

/-- Field access `this.children`. -/
def children : Tree α → List (Option (Tree α))
  | .mk _ cs => cs

/-- The `Tree` constructor:
`if (value === undefined) throw new Error('The value of a tree cannot be undefined.');
this.value = value; this.children = children;`
A possibly-`undefined` argument is modelled as `Option α`; the children
argument defaults to `[]` as in `children: Tree<T>[] = []`. -/
def make (value : Option α) (children : List (Option (Tree α)) := []) :
    Except String (Tree α) :=
  match value with
  | none => .error "The value of a tree cannot be undefined."
  | some v => .ok (.mk v children)

/-- Method `add(value)`: `this.children.push(new Tree(value));` -/
def add (t : Tree α) (x : α) : Tree α :=
  .mk t.value (t.children ++ [some (.mk x [])])

/-- Helper for `addToChild`: apply `add x` to the node in the `i`-th
slot of a children list, if that slot holds one. -/
def addChildAt (x : α) : Nat → List (Option (Tree α)) → List (Option (Tree α))
  | _, [] => []
  | 0, c :: cs => c.map (fun u => u.add x) :: cs
  | i + 1, c :: cs => c :: addChildAt x i cs

/-- Models `tree.children[i].add(x)` (used in the `toString` doc example):
replaces the `i`-th child slot, when it holds a node, by that node with
`x` appended via `add`. -/
def addToChild (t : Tree α) (i : Nat) (x : α) : Tree α :=
  .mk t.value (addChildAt x i t.children)

mutual

/-- Method `height()`:
`if (this.children.length === 0) return 0;
let heights = this.children.map(child => child?.height() ?? 0);
return Math.max(...heights) + 1;` -/
def height : Tree α → Nat
  | .mk _ [] => 0
  | .mk _ (c :: cs) => heightsMax (c :: cs) + 1

/-- Computes `Math.max(...this.children.map(child => child?.height() ?? 0))` over a
non-empty children list: a `null` slot contributes `0`. -/
def heightsMax : List (Option (Tree α)) → Nat
  | [] => 0
  | none :: cs => max 0 (heightsMax cs)
  | some t :: cs => max (height t) (heightsMax cs)

end

mutual

/-- Method `search(predicate)`:
`if (predicate(this.value)) return this.value;
for (let child of this.children) { if (child === null) continue;
let result = child.search(predicate); if (result !== null) return result; }
return null;` -/
def search (p : α → Bool) : Tree α → Option α
  | .mk v cs => if p v then some v else searchList p cs

/-- The child loop of `search`: skip `null` slots, return the first
non-`null` recursive result. -/
def searchList (p : α → Bool) : List (Option (Tree α)) → Option α
  | [] => none
  | none :: cs => searchList p cs
  | some c :: cs =>
    match search p c with
    | some r => some r
    | none => searchList p cs

end

mutual

/-- Depth-first pre-order traversal of the values: the node itself first,
then the children in storage order, `null` slots skipped. The repository
exposes no traversal function; this is the measuring definition for the
spec's "depth-first, pre-order" search contract. -/
def preorder : Tree α → List α
  | .mk v cs => v :: preorderList cs

/-- Pre-order traversal of a children list, in storage order. -/
def preorderList : List (Option (Tree α)) → List α
  | [] => []
  | none :: cs => preorderList cs
  | some c :: cs => preorder c ++ preorderList cs

end

mutual

/-- Method `invert()`: `this.children.reverse(); this.children.forEach(child => child?.invert());`
Reversing the slots and then inverting each non-`null` child in place
equals inverting each child and then reversing, which is how it is
written here (element-wise mapping commutes with `reverse`). -/
def invert : Tree α → Tree α
  | .mk v cs => .mk v (invertAll cs).reverse

/-- Invert every non-`null` child of a children list. -/
def invertAll : List (Option (Tree α)) → List (Option (Tree α))
  | [] => []
  | none :: cs => none :: invertAll cs
  | some t :: cs => some (invert t) :: invertAll cs

end

end Tree

/-- Models `childOutput.replace(/\n/g, '\n' + childPrefix)` on the character
list of a string: every newline gets the prefix inserted after it. -/
def padChars (pfx : List Char) : List Char → List Char
  | [] => []
  | c :: cs =>
    if c = '\n' then '\n' :: (pfx ++ padChars pfx cs)
    else c :: padChars pfx cs

/-- Computes `s.replace(/\n/g, '\n' + pfx)`. -/
def padLines (pfx s : String) : String := ⟨padChars pfx.data s.data⟩

namespace Tree

mutual

/-- Method `toString()` with no custom renderer:
`let output = `${value}`;
let children = this.children.filter(child => child !== null);
if (children.length == 0) return output;` then the child loop, which
appends `'\n'` plus the prefixed block of each non-`null` child. -/
def render [ToString α] : Tree α → String
  | .mk v cs => toString v ++ renderChildren cs

/-- The child loop of `toString`. The code first filters out `null`
slots and compares the loop index against the filtered length; that is
the same as walking the original list, skipping `null` slots, and
treating a non-`null` child as last exactly when no non-`null` slot
follows it. `lastChild` selects `'└─'`/two spaces, otherwise
`'├─'`/`'│ '`; the recursive `child.toString()` call passes no
renderer. -/
def renderChildren [ToString α] : List (Option (Tree α)) → String
  | [] => ""
  | none :: cs => renderChildren cs
  | some c :: cs =>
    if cs.any Option.isSome then
      "\n├─" ++ padLines "│ " (render c) ++ renderChildren cs
    else
      "\n└─" ++ padLines "  " (render c)

end

/-- Method `toString(predicate)` with a custom renderer supplied:
`let value = predicate ? predicate(this.value) : this.value;` — only the
root line uses `predicate`; the children are rendered by the recursive
calls `child.toString()`, which pass no renderer. -/
def renderWith [ToString α] (f : α → String) : Tree α → String
  | .mk v cs => f v ++ renderChildren cs

end Tree

/-- A `BinaryTree<T>` reference, possibly `null`: `BTree.nil` is the TS
`null`, and `BTree.node v l r` is a `BinaryTree` object with `value = v`
and inherited `children = [l, r]` (the constructor runs
`super(value); this.children = [left, right];`). -/
inductive BTree (α : Type) : Type where
  | nil
  | node (value : α) (left : BTree α) (right : BTree α)
deriving DecidableEq

namespace BTree

/-- A `BinaryTree` object viewed as its superclass `Tree`: the value with
the two-slot children array `[left, right]`; a `null` reference is
`none`. -/
def toTree : BTree α → Option (Tree α)
  | .nil => none
  | .node v l r => some (.mk v [toTree l, toTree r])

/-- The inherited `height()` running on the two-slot children array
(`BinaryTree` does not override `height`). On a `null` reference it is
never invoked; that case is inert here. -/
def height : BTree α → Nat
  | .nil => 0
  | .node v l r => Tree.height (.mk v [toTree l, toTree r])

/-- Method `maxNodes()`: `return Math.pow(2, this.height() + 1) - 1;`
(exact on `Nat`, since `2 ^ (h + 1) ≥ 1`). -/
def maxNodes (t : BTree α) : Nat := 2 ^ (t.height + 1) - 1

/-- Method `insert(value)`:
`if (value < this.value) { if (this.left === null) { this.left = new BinaryTree(value); }
else { this.left.insert(value); } } else if (value > this.value) { … right … }`
— equal values take neither branch. Never invoked on a `null` reference;
that case is inert here. -/
def insert [LinearOrder α] : BTree α → α → BTree α
  | .nil, _ => .nil
  | .node v l r, x =>
    if x < v then
      match l with
      | .nil => .node v (.node x .nil .nil) r
      | .node lv ll lr => .node v (insert (.node lv ll lr) x) r
    else if v < x then
      match r with
      | .nil => .node v l (.node x .nil .nil)
      | .node rv rl rr => .node v l (insert (.node rv rl rr) x)
    else
      .node v l r

/-- Method `add()`:
`throw new Error('BinaryTree.add is not a function. Use BinaryTree.insert instead.');`
Were it to return, it would return the updated tree; it always throws,
on every receiver. -/
def add (_t : BTree α) : Except String (BTree α) :=
  .error "BinaryTree.add is not a function. Use BinaryTree.insert instead."

/-- In-order traversal: left subtree, node, right subtree (spec
glossary; the repository exposes no traversal function — this is the
measuring definition for the BST properties). -/
def inorder : BTree α → List α
  | .nil => []
  | .node v l r => inorder l ++ v :: inorder r

/-- The BST invariant from the spec: at every node, each value of the
left subtree is `<` the node's value, which is `<` each value of the
right subtree. -/
def isBST [LinearOrder α] : BTree α → Prop
  | .nil => True
  | .node v l r =>
    (∀ y ∈ inorder l, y < v) ∧ (∀ y ∈ inorder r, v < y) ∧ isBST l ∧ isBST r

/-- Runs `new BinaryTree(v)` followed by `insert`-ing each element of `xs`
in order. -/
def build [LinearOrder α] (v : α) (xs : List α) : BTree α :=
  xs.foldl insert (.node v .nil .nil)

end BTree

/-- A `BinaryTree` object as a heap record, for the `parent`
back-reference: `value`, the two child slots and the parent slot as node
ids into a heap (a list of records indexed by position). -/
structure BNode (α : Type) where
  value : α
  left : Option Nat
  right : Option Nat
  parent : Option Nat
deriving DecidableEq

/-- Replace the record at index `i` (out-of-range indices change
nothing), i.e. one mutation of one heap cell. -/
def updAt (i : Nat) (f : BNode α → BNode α) : List (BNode α) → List (BNode α)
  | [] => []
  | n :: rest =>
    match i with
    | 0 => f n :: rest
    | i + 1 => n :: updAt i f rest

/-- The `BinaryTree` constructor on the heap:
`super(value); this.children = [left, right];` — it allocates a fresh
record whose child slots are `left`/`right` as given and whose own
`parent` is unset, and writes the children array directly, touching no
other record (in particular not the `parent` of `left` or `right`).
Returns the new heap and the id of the new node. -/
def construct (s : List (BNode α)) (v : α) (l r : Option Nat) :
    List (BNode α) × Nat :=
  (s ++ [⟨v, l, r, none⟩], s.length)

/-- Setter `set left(value)`: `if (value) value.parent = this; this.children[0] = value;` -/
def setLeft (s : List (BNode α)) (i : Nat) (c : Option Nat) : List (BNode α) :=
  let s1 := match c with
    | some j => updAt j (fun n => { n with parent := some i }) s
    | none => s
  updAt i (fun n => { n with left := c }) s1

/-- Setter `set right(value)`: `if (value) value.parent = this; this.children[1] = value;` -/
def setRight (s : List (BNode α)) (i : Nat) (c : Option Nat) : List (BNode α) :=
  let s1 := match c with
    | some j => updAt j (fun n => { n with parent := some i }) s
    | none => s
  updAt i (fun n => { n with right := c }) s1

/-- The `toString` example tree of the spec:
`new Tree(5)`, then `add(3); add(7); add(2); add(4);`, then
`children[0].add(1); children[0].add(6); children[1].add(8);`. -/
def exampleTree : Tree Nat :=
  (((((((Tree.mk 5 []).add 3).add 7).add 2).add 4).addToChild 0
    1).addToChild 0 6).addToChild 1 8

/-- The `maxNodes` example tree of the spec: `new BinaryTree(5)` followed
by `insert`-ing `3, 7, 2, 4, 6`. -/
def exampleBTree : BTree Int := BTree.build 5 [3, 7, 2, 4, 6]

/-- A two-record heap used to witness the heap-level theorems. -/
def exampleHeap : List (BNode Nat) :=
  [⟨10, none, none, none⟩, ⟨20, none, none, none⟩]

/-- C1: `height()` of a `Tree` leaf (empty children array) is `0` and
attaching one child makes it `1`, as claimed; but a `BinaryTree` whose
`left` and `right` are both `null` has children array `[null, null]` of
length 2, so the code takes the `1 + max(...)` branch and returns `1`,
not the claimed `0` (contradicting the code's own doc comment, which
defines height as the number of edges on the longest root-to-leaf
path). -/
theorem height_of_leaf_and_of_absent_slots :
    Tree.height (Tree.mk (5 : Nat) []) = 0 ∧
    Tree.height ((Tree.mk (5 : Nat) []).add 3) = 1 ∧
    BTree.height (BTree.node (5 : Int) .nil .nil) = 1 ∧
    BTree.height (BTree.node (5 : Int) .nil .nil) ≠ 0 :=
  ⟨rfl, rfl, rfl, by decide⟩

/-- C2: `maxNodes()` is indeed `2 ^ (height() + 1) - 1` for every
`BinaryTree`, but on the tree built by inserting `5, 3, 7, 2, 4, 6` the
inherited `height()` returns `3` (not `2`, by the height slip recorded
at C1), so `maxNodes()` returns `15`, not the claimed `7`. -/
theorem maxNodes_on_insert_example :
    (∀ (t : BTree Int), BTree.maxNodes t = 2 ^ (BTree.height t + 1) - 1) ∧
    BTree.height exampleBTree = 3 ∧
    BTree.maxNodes exampleBTree = 15 ∧
    BTree.maxNodes exampleBTree ≠ 7 :=
  ⟨fun _ => rfl, by decide, by decide, by decide⟩

/-- C3 counterexample: on the spec's example tree (root `5` with
children `3, 7, 2, 4` added in order, `1` and `6` under `3`, `8` under
`7`), `toString()` does not produce the claimed seven-line string — the
code renders all four root children. -/
theorem render_example_ne_claimed :
    Tree.render exampleTree ≠ "5\n├─3\n│ ├─1\n│ └─6\n├─7\n│ └─8\n└─2" := by
  decide

/-- C3 amended: on the spec's example tree, `toString()` with no custom
renderer returns exactly the eight-line string
`"5\n├─3\n│ ├─1\n│ └─6\n├─7\n│ └─8\n├─2\n└─4"`: the third root child
`2` is a non-last branch (`├─2`) and the fourth root child `4` is the
last branch (`└─4`). -/
theorem render_example_eq_actual :
    Tree.render exampleTree = "5\n├─3\n│ ├─1\n│ └─6\n├─7\n│ └─8\n├─2\n└─4" := by
  decide

/-- C6: calling `add` on any `BinaryTree` instance, whatever its state,
throws the `UnsupportedOperation` error whose message directs the caller
to use `insert`, and returns no updated tree (so the tree is never
modified). -/
theorem binaryTree_add_always_throws {α : Type} (t : BTree α) :
    BTree.add t =
      Except.error
        "BinaryTree.add is not a function. Use BinaryTree.insert instead." :=
  rfl

/-- C9: constructing a tree node with an absent (`undefined`) value
fails with the InvalidValue error, yielding no usable node; supplying a
value together with any children list succeeds and adopts exactly those
children. -/
theorem tree_construction_spec {α : Type} (v : α)
    (cs : List (Option (Tree α))) :
    Tree.make (none : Option α) cs =
        Except.error "The value of a tree cannot be undefined." ∧
    Tree.make (some v) cs = Except.ok (Tree.mk v cs) :=
  ⟨rfl, rfl⟩

/-- C7: with a custom renderer, only the root line is produced by the
renderer — for any two renderers `f` and `g` the outputs differ only in
that first segment, with one common children block rendered by the
default `toString`; concretely, a constant renderer `"X"` still prints
the child `3` with the default conversion. -/
theorem custom_renderer_applies_to_root_only {α : Type} [ToString α]
    (f g : α → String) (t : Tree α) :
    Tree.renderWith f t = f t.value ++ Tree.renderChildren t.children ∧
    Tree.renderWith g t = g t.value ++ Tree.renderChildren t.children ∧
    Tree.render t = toString t.value ++ Tree.renderChildren t.children ∧
    Tree.renderWith (fun _ => "X") (Tree.mk (5 : Nat) [some (Tree.mk 3 [])]) =
      "X\n└─3" := by
  obtain ⟨v, cs⟩ := t
  exact ⟨rfl, rfl, rfl, by decide⟩

/-- Strong induction over `Tree`: to prove a property of every node it
suffices to prove it for a node assuming it for all non-`null` children. -/
theorem Tree.strongInd {α : Type} {motive : Tree α → Prop}
    (h : ∀ v cs, (∀ t, some t ∈ cs → motive t) → motive (.mk v cs)) :
    ∀ t, motive t := by
  have key : ∀ (n : Nat) (t : Tree α), sizeOf t ≤ n → motive t := by
    intro n
    induction n with
    | zero =>
      intro t ht
      cases t with
      | mk v cs => simp only [Tree.mk.sizeOf_spec] at ht; omega
    | succ n ih =>
      intro t ht
      cases t with
      | mk v cs =>
        refine h v cs (fun t' ht' => ih t' ?_)
        have h1 : sizeOf (some t') < sizeOf cs := List.sizeOf_lt_of_mem ht'
        simp only [Tree.mk.sizeOf_spec] at ht
        simp only [Option.some.sizeOf_spec] at h1
        omega
  exact fun t => key (sizeOf t) t le_rfl

/-- The child loop of `search` agrees with `find?` on the pre-order
traversal of the children, assuming agreement on each non-`null` child. -/
theorem Tree.searchList_eq_find {α : Type} (p : α → Bool) :
    ∀ (cs : List (Option (Tree α))),
      (∀ t, some t ∈ cs → Tree.search p t = (Tree.preorder t).find? p) →
      Tree.searchList p cs = (Tree.preorderList cs).find? p := by
  intro cs
  induction cs with
  | nil => intro _; rfl
  | cons c cs ih =>
    intro h
    cases c with
    | none =>
      simp only [Tree.searchList, Tree.preorderList]
      exact ih (fun t ht => h t (List.mem_cons_of_mem _ ht))
    | some c =>
      have hc := h c (List.mem_cons_self _ _)
      simp only [Tree.searchList, Tree.preorderList, List.find?_append, ← hc]
      cases hs : Tree.search p c with
      | some r => rfl
      | none =>
        simpa using ih (fun t ht => h t (List.mem_cons_of_mem _ ht))

/-- C5: `search(predicate)` returns exactly the first match of the
depth-first pre-order traversal (node before children, children in
storage order, `null` slots skipped), and returns `null` precisely when
no node's value satisfies the predicate. -/
theorem search_is_first_preorder_match {α : Type} (p : α → Bool)
    (t : Tree α) :
    Tree.search p t = (Tree.preorder t).find? p ∧
    (Tree.search p t = none ↔ ∀ x ∈ Tree.preorder t, p x = false) := by
  have main : ∀ (u : Tree α), Tree.search p u = (Tree.preorder u).find? p := by
    refine Tree.strongInd ?_
    intro v cs ih
    simp only [Tree.search, Tree.preorder, List.find?_cons]
    cases hp : p v with
    | true => rfl
    | false => exact Tree.searchList_eq_find p cs ih
  refine ⟨main t, ?_⟩
  rw [main t, List.find?_eq_none]
  simp

/-- Inverting every non-`null` child distributes over list append. -/
theorem Tree.invertAll_append {α : Type} (l₁ l₂ : List (Option (Tree α))) :
    Tree.invertAll (l₁ ++ l₂) = Tree.invertAll l₁ ++ Tree.invertAll l₂ := by
  induction l₁ with
  | nil => rfl
  | cons c cs ih =>
    cases c with
    | none => simp only [List.cons_append, Tree.invertAll, List.append_eq, ih]
    | some u => simp only [List.cons_append, Tree.invertAll, List.append_eq, ih]

/-- Inverting every non-`null` child commutes with reversing the list. -/
theorem Tree.invertAll_reverse {α : Type} (l : List (Option (Tree α))) :
    Tree.invertAll l.reverse = (Tree.invertAll l).reverse := by
  induction l with
  | nil => rfl
  | cons c cs ih =>
    cases c with
    | none =>
      simp only [List.reverse_cons, Tree.invertAll_append, Tree.invertAll, ih]
    | some u =>
      simp only [List.reverse_cons, Tree.invertAll_append, Tree.invertAll, ih]

/-- Inverting every non-`null` child twice is the identity, assuming the
double inversion is the identity on each non-`null` child. -/
theorem Tree.invertAll_invertAll {α : Type} (cs : List (Option (Tree α)))
    (ih : ∀ t, some t ∈ cs → t.invert.invert = t) :
    Tree.invertAll (Tree.invertAll cs) = cs := by
  induction cs with
  | nil => rfl
  | cons c cs ihc =>
    cases c with
    | none =>
      simp only [Tree.invertAll]
      rw [ihc (fun t ht => ih t (List.mem_cons_of_mem _ ht))]
    | some u =>
      simp only [Tree.invertAll]
      rw [ih u (List.mem_cons_self _ _),
        ihc (fun t ht => ih t (List.mem_cons_of_mem _ ht))]

/-- Pre-order traversal of the values distributes over list append. -/
theorem Tree.preorderList_append {α : Type} (l₁ l₂ : List (Option (Tree α))) :
    Tree.preorderList (l₁ ++ l₂) =
      Tree.preorderList l₁ ++ Tree.preorderList l₂ := by
  induction l₁ with
  | nil => rfl
  | cons c cs ih =>
    cases c with
    | none => simp only [List.cons_append, Tree.preorderList, List.append_eq, ih]
    | some u =>
      simp only [List.cons_append, Tree.preorderList, List.append_eq, ih,
        List.append_assoc]

/-- Reversing a children list permutes its pre-order values. -/
theorem Tree.preorderList_reverse_perm {α : Type}
    (l : List (Option (Tree α))) :
    List.Perm (Tree.preorderList l.reverse) (Tree.preorderList l) := by
  induction l with
  | nil => exact List.Perm.refl _
  | cons c cs ih =>
    rw [List.reverse_cons, Tree.preorderList_append]
    cases c with
    | none =>
      simpa only [Tree.preorderList, List.append_nil] using ih
    | some u =>
      simp only [Tree.preorderList, List.append_nil]
      exact (List.perm_append_comm.trans (List.Perm.append (List.Perm.refl _) ih))

/-- Inverting each non-`null` child permutes the pre-order values of a
children list, assuming each child's inversion permutes its values. -/
theorem Tree.preorderList_invertAll_perm {α : Type}
    (cs : List (Option (Tree α)))
    (ih : ∀ t, some t ∈ cs →
      List.Perm (Tree.preorder t.invert) (Tree.preorder t)) :
    List.Perm (Tree.preorderList (Tree.invertAll cs))
      (Tree.preorderList cs) := by
  induction cs with
  | nil => exact List.Perm.refl _
  | cons c cs ihc =>
    cases c with
    | none =>
      simpa only [Tree.invertAll, Tree.preorderList]
        using ihc (fun t ht => ih t (List.mem_cons_of_mem _ ht))
    | some u =>
      simp only [Tree.invertAll, Tree.preorderList]
      exact List.Perm.append (ih u (List.mem_cons_self _ _))
        (ihc (fun t ht => ih t (List.mem_cons_of_mem _ ht)))

/-- C8: `invert()` is an involution — applying it twice restores the
original children order at every node — and a single `invert()` never
changes the node values: the pre-order value sequence of the inverted
tree is a permutation of the original one. -/
theorem invert_involution {α : Type} (t : Tree α) :
    t.invert.invert = t ∧
    List.Perm (Tree.preorder t.invert) (Tree.preorder t) := by
  have h1 : ∀ (u : Tree α), u.invert.invert = u := by
    refine Tree.strongInd ?_
    intro v cs ih
    show Tree.invert (Tree.mk v (Tree.invertAll cs).reverse) = Tree.mk v cs
    simp only [Tree.invert]
    rw [Tree.invertAll_reverse, List.reverse_reverse,
      Tree.invertAll_invertAll cs ih]
  have h2 : ∀ (u : Tree α),
      List.Perm (Tree.preorder u.invert) (Tree.preorder u) := by
    refine Tree.strongInd ?_
    intro v cs ih
    show List.Perm (Tree.preorder (Tree.mk v (Tree.invertAll cs).reverse))
      (Tree.preorder (Tree.mk v cs))
    simp only [Tree.preorder]
    exact List.Perm.cons v
      ((Tree.preorderList_reverse_perm _).trans
        (Tree.preorderList_invertAll_perm cs ih))
  exact ⟨h1 t, h2 t⟩

/-- One-step unfolding of `inorder` at a node. -/
theorem BTree.inorder_node {α : Type} (v : α) (l r : BTree α) :
    (BTree.node v l r).inorder = l.inorder ++ v :: r.inorder := rfl

/-- One-step unfolding of `inorder` at the `null` reference. -/
theorem BTree.inorder_nil {α : Type} : (BTree.nil : BTree α).inorder = [] := rfl

/-- Membership in the in-order traversal of a node, one step. -/
theorem BTree.mem_inorder_node {α : Type} {y v : α} {l r : BTree α} :
    y ∈ (BTree.node v l r).inorder ↔
      y ∈ l.inorder ∨ y = v ∨ y ∈ r.inorder := by
  rw [BTree.inorder_node, List.mem_append, List.mem_cons]

/-- One-step unfolding of the BST invariant at a node. -/
theorem BTree.isBST_node {α : Type} [LinearOrder α] (v : α) (l r : BTree α) :
    (BTree.node v l r).isBST ↔
      ((∀ y ∈ l.inorder, y < v) ∧ (∀ y ∈ r.inorder, v < y) ∧
        l.isBST ∧ r.isBST) :=
  Iff.rfl

/-- Branch equation: `x < v` with `left === null` attaches a fresh leaf. -/
theorem BTree.insert_lt_nil {α : Type} [LinearOrder α] (v x : α) (r : BTree α)
    (h : x < v) :
    (BTree.node v BTree.nil r).insert x =
      BTree.node v (BTree.node x BTree.nil BTree.nil) r := by
  rw [BTree.insert.eq_def]; simp [h]

/-- Branch equation: `x < v` with `left` present recurses left. -/
theorem BTree.insert_lt_node {α : Type} [LinearOrder α] (v x lv : α)
    (ll lr r : BTree α) (h : x < v) :
    (BTree.node v (BTree.node lv ll lr) r).insert x =
      BTree.node v ((BTree.node lv ll lr).insert x) r := by
  rw [BTree.insert.eq_def]; simp [h]

/-- Branch equation: `v < x` with `right === null` attaches a fresh leaf. -/
theorem BTree.insert_gt_nil {α : Type} [LinearOrder α] (v x : α) (l : BTree α)
    (h1 : ¬ x < v) (h2 : v < x) :
    (BTree.node v l BTree.nil).insert x =
      BTree.node v l (BTree.node x BTree.nil BTree.nil) := by
  rw [BTree.insert.eq_def]; simp [h1, h2]

/-- Branch equation: `v < x` with `right` present recurses right. -/
theorem BTree.insert_gt_node {α : Type} [LinearOrder α] (v x rv : α)
    (l rl rr : BTree α) (h1 : ¬ x < v) (h2 : v < x) :
    (BTree.node v l (BTree.node rv rl rr)).insert x =
      BTree.node v l ((BTree.node rv rl rr).insert x) := by
  rw [BTree.insert.eq_def]; simp [h1, h2]

/-- Branch equation: an equal value takes neither branch (no-op). -/
theorem BTree.insert_eq_noop {α : Type} [LinearOrder α] (v x : α)
    (l r : BTree α) (h1 : ¬ x < v) (h2 : ¬ v < x) :
    (BTree.node v l r).insert x = BTree.node v l r := by
  rw [BTree.insert.eq_def]; simp [h1, h2]

/-- Insertion into a node never yields the `null` reference. -/
theorem BTree.insert_ne_nil {α : Type} [LinearOrder α] (v : α) (l r : BTree α)
    (x : α) : (BTree.node v l r).insert x ≠ BTree.nil := by
  by_cases h1 : x < v
  · cases l with
    | nil => rw [BTree.insert_lt_nil v x r h1]; simp
    | node lv ll lr => rw [BTree.insert_lt_node v x lv ll lr r h1]; simp
  · by_cases h2 : v < x
    · cases r with
      | nil => rw [BTree.insert_gt_nil v x l h1 h2]; simp
      | node rv rl rr => rw [BTree.insert_gt_node v x rv l rl rr h1 h2]; simp
    · rw [BTree.insert_eq_noop v x l r h1 h2]; simp

/-- Membership in the in-order traversal after `insert`: the inserted
value is present, and no other value appears or disappears (no BST
hypothesis needed; inserting into the `null` reference is inert). -/
theorem BTree.mem_inorder_insert {α : Type} [LinearOrder α] (t : BTree α)
    (x y : α) :
    y ∈ (t.insert x).inorder ↔ (t ≠ BTree.nil ∧ y = x) ∨ y ∈ t.inorder := by
  induction t with
  | nil => simp [BTree.insert, BTree.inorder]
  | node v l r ihl ihr =>
    by_cases h1 : x < v
    · cases l with
      | nil =>
        clear ihl ihr
        rw [BTree.insert_lt_nil v x r h1, BTree.mem_inorder_node,
          BTree.mem_inorder_node, BTree.mem_inorder_node]
        simp only [BTree.inorder_nil, List.not_mem_nil, ne_eq, reduceCtorEq,
          not_false_eq_true, true_and, or_false, false_or]
      | node lv ll lr =>
        clear ihr
        rw [BTree.insert_lt_node v x lv ll lr r h1, BTree.mem_inorder_node,
          ihl]
        simp only [BTree.mem_inorder_node, ne_eq, reduceCtorEq,
          not_false_eq_true, true_and]
        tauto
    · by_cases h2 : v < x
      · cases r with
        | nil =>
          clear ihl ihr
          rw [BTree.insert_gt_nil v x l h1 h2, BTree.mem_inorder_node,
            BTree.mem_inorder_node, BTree.mem_inorder_node]
          simp only [BTree.inorder_nil, List.not_mem_nil, ne_eq, reduceCtorEq,
            not_false_eq_true, true_and, or_false, false_or]
          tauto
        | node rv rl rr =>
          clear ihl
          rw [BTree.insert_gt_node v x rv l rl rr h1 h2,
            BTree.mem_inorder_node, ihr]
          simp only [BTree.mem_inorder_node, ne_eq, reduceCtorEq,
            not_false_eq_true, true_and]
          tauto
      · clear ihl ihr
        have hx : x = v := le_antisymm (not_lt.mp h2) (not_lt.mp h1)
        subst hx
        rw [BTree.insert_eq_noop x x l r h1 h2, BTree.mem_inorder_node]
        simp only [BTree.mem_inorder_node, ne_eq, reduceCtorEq,
          not_false_eq_true, true_and]
        constructor
        · tauto
        · rintro (rfl | h)
          · exact Or.inr (Or.inl rfl)
          · exact h

/-- The `insert` method preserves the BST invariant. -/
theorem BTree.isBST_insert {α : Type} [LinearOrder α] (t : BTree α) (x : α)
    (h : t.isBST) : (t.insert x).isBST := by
  induction t with
  | nil => simpa [BTree.insert] using h
  | node v l r ihl ihr =>
    rw [BTree.isBST_node] at h
    obtain ⟨hl, hr, bl, br⟩ := h
    by_cases h1 : x < v
    · cases l with
      | nil =>
        clear ihl ihr
        rw [BTree.insert_lt_nil v x r h1, BTree.isBST_node]
        refine ⟨?_, hr, ?_, br⟩
        · intro y hy
          rw [BTree.mem_inorder_node] at hy
          simp only [BTree.inorder_nil, List.not_mem_nil, false_or,
            or_false] at hy
          subst hy
          exact h1
        · rw [BTree.isBST_node]
          refine ⟨?_, ?_, trivial, trivial⟩ <;> simp [BTree.inorder_nil]
      | node lv ll lr =>
        clear ihr
        rw [BTree.insert_lt_node v x lv ll lr r h1, BTree.isBST_node]
        refine ⟨?_, hr, ihl bl, br⟩
        intro y hy
        rw [BTree.mem_inorder_insert] at hy
        rcases hy with ⟨_, rfl⟩ | hy
        · exact h1
        · exact hl y hy
    · by_cases h2 : v < x
      · cases r with
        | nil =>
          clear ihl ihr
          rw [BTree.insert_gt_nil v x l h1 h2, BTree.isBST_node]
          refine ⟨hl, ?_, bl, ?_⟩
          · intro y hy
            rw [BTree.mem_inorder_node] at hy
            simp only [BTree.inorder_nil, List.not_mem_nil, false_or,
              or_false] at hy
            subst hy
            exact h2
          · rw [BTree.isBST_node]
            refine ⟨?_, ?_, trivial, trivial⟩ <;> simp [BTree.inorder_nil]
        | node rv rl rr =>
          clear ihl
          rw [BTree.insert_gt_node v x rv l rl rr h1 h2, BTree.isBST_node]
          refine ⟨hl, ?_, bl, ihr br⟩
          intro y hy
          rw [BTree.mem_inorder_insert] at hy
          rcases hy with ⟨_, rfl⟩ | hy
          · exact h2
          · exact hr y hy
      · clear ihl ihr
        have hx : x = v := le_antisymm (not_lt.mp h2) (not_lt.mp h1)
        subst hx
        rw [BTree.insert_eq_noop x x l r h1 h2, BTree.isBST_node]
        exact ⟨hl, hr, bl, br⟩

/-- The in-order traversal of a BST is strictly sorted. -/
theorem BTree.sorted_inorder_of_isBST {α : Type} [LinearOrder α]
    (t : BTree α) (h : t.isBST) : t.inorder.Sorted (fun a b => a < b) := by
  induction t with
  | nil => rw [BTree.inorder_nil]; exact List.sorted_nil
  | node v l r ihl ihr =>
    rw [BTree.isBST_node] at h
    obtain ⟨hl, hr, bl, br⟩ := h
    rw [BTree.inorder_node]
    refine List.pairwise_append.mpr ⟨ihl bl, ?_, ?_⟩
    · exact List.pairwise_cons.mpr ⟨hr, ihr br⟩
    · intro a ha b hb
      rcases List.mem_cons.mp hb with rfl | hb
      · exact hl a ha
      · exact lt_trans (hl a ha) (hr b hb)

/-- Inserting a value already present in a BST is a no-op: the equal
branch of `insert` is taken at the node holding the value, and the tree
is rebuilt unchanged. -/
theorem BTree.insert_eq_self_of_mem {α : Type} [LinearOrder α] (t : BTree α)
    (x : α) (h : t.isBST) (hx : x ∈ t.inorder) : t.insert x = t := by
  induction t with
  | nil => rw [BTree.inorder_nil] at hx; exact absurd hx (List.not_mem_nil x)
  | node v l r ihl ihr =>
    rw [BTree.isBST_node] at h
    obtain ⟨hl, hr, bl, br⟩ := h
    rw [BTree.mem_inorder_node] at hx
    rcases hx with hxl | rfl | hxr
    · have h1 : x < v := hl x hxl
      cases l with
      | nil => rw [BTree.inorder_nil] at hxl; exact absurd hxl (List.not_mem_nil x)
      | node lv ll lr =>
        clear ihr
        rw [BTree.insert_lt_node v x lv ll lr r h1, ihl bl hxl]
    · clear ihl ihr
      exact BTree.insert_eq_noop x x l r (lt_irrefl x) (lt_irrefl x)
    · have h2 : v < x := hr x hxr
      have h1 : ¬ x < v := not_lt.mpr (le_of_lt h2)
      cases r with
      | nil => rw [BTree.inorder_nil] at hxr; exact absurd hxr (List.not_mem_nil x)
      | node rv rl rr =>
        clear ihl
        rw [BTree.insert_gt_node v x rv l rl rr h1 h2, ihr br hxr]

/-- Folding `insert` over a list, starting from a non-`null` BST, keeps
the tree non-`null`, keeps the BST invariant, and the in-order members
become exactly the old members plus the folded values. -/
theorem BTree.foldl_insert_spec {α : Type} [LinearOrder α] (xs : List α)
    (t : BTree α) (ht : t ≠ BTree.nil) (hb : t.isBST) :
    List.foldl BTree.insert t xs ≠ BTree.nil ∧
    (List.foldl BTree.insert t xs).isBST ∧
    (∀ y, y ∈ (List.foldl BTree.insert t xs).inorder ↔
      y ∈ t.inorder ∨ y ∈ xs) := by
  induction xs generalizing t with
  | nil =>
    refine ⟨ht, hb, fun y => ?_⟩
    simp
  | cons a as ih =>
    have h1 : t.insert a ≠ BTree.nil := by
      cases t with
      | nil => exact absurd rfl ht
      | node v l r => exact BTree.insert_ne_nil v l r a
    have h2 : (t.insert a).isBST := BTree.isBST_insert t a hb
    obtain ⟨n3, b3, m3⟩ := ih (t.insert a) h1 h2
    refine ⟨n3, b3, fun y => ?_⟩
    rw [List.foldl_cons, m3 y, BTree.mem_inorder_insert]
    simp only [ht, ne_eq, not_false_eq_true, true_and, List.mem_cons]
    tauto

/-- C4: building a fresh BinaryTree with root value `v` and then
`insert`-ing every element of `xs` in order yields a tree satisfying
the BST invariant at every node; its in-order traversal is strictly
sorted and duplicate-free; its members are exactly the distinct
inserted values; and `insert` of any value already in the tree leaves
the tree unchanged (duplicates are silently dropped). -/
theorem bst_insert_builds_sorted_distinct {α : Type} [LinearOrder α]
    (v : α) (xs : List α) :
    (BTree.build v xs).isBST ∧
    ((BTree.build v xs).inorder).Sorted (fun a b => a < b) ∧
    ((BTree.build v xs).inorder).Nodup ∧
    (∀ y, y ∈ (BTree.build v xs).inorder ↔ y = v ∨ y ∈ xs) ∧
    (∀ x, x ∈ (BTree.build v xs).inorder →
      (BTree.build v xs).insert x = BTree.build v xs) := by
  have hroot : (BTree.node v BTree.nil BTree.nil : BTree α) ≠ BTree.nil := by
    simp
  have hbst : (BTree.node v BTree.nil BTree.nil : BTree α).isBST := by
    rw [BTree.isBST_node]
    refine ⟨?_, ?_, trivial, trivial⟩ <;> simp [BTree.inorder_nil]
  obtain ⟨hn, hb, hm⟩ :=
    BTree.foldl_insert_spec xs (BTree.node v BTree.nil BTree.nil) hroot hbst
  have hb' : (BTree.build v xs).isBST := hb
  have hsorted := BTree.sorted_inorder_of_isBST _ hb'
  refine ⟨hb', hsorted, hsorted.nodup, fun y => ?_, fun x hx => ?_⟩
  · have hy := hm y
    rw [BTree.mem_inorder_node] at hy
    simp only [BTree.inorder_nil, List.not_mem_nil, false_or, or_false] at hy
    exact hy
  · exact BTree.insert_eq_self_of_mem _ x hb' hx

/-- Updating one heap cell preserves the heap's length. -/
theorem updAt_length {α : Type} (f : BNode α → BNode α) :
    ∀ (i : Nat) (s : List (BNode α)), (updAt i f s).length = s.length := by
  intro i s
  induction s generalizing i with
  | nil => simp [updAt]
  | cons n rest ih =>
    cases i with
    | zero => simp [updAt]
    | succ j => simp only [updAt, List.length_cons, ih j]

/-- Updating one heap cell leaves every other cell unchanged. -/
theorem updAt_getElem_ne {α : Type} (f : BNode α → BNode α) :
    ∀ (i k : Nat) (s : List (BNode α)), k ≠ i →
      (updAt i f s)[k]? = s[k]? := by
  intro i k s
  induction s generalizing i k with
  | nil => intro _; simp [updAt]
  | cons n rest ih =>
    intro hk
    cases i with
    | zero =>
      cases k with
      | zero => exact absurd rfl hk
      | succ k2 => simp only [updAt, List.getElem?_cons_succ]
    | succ j =>
      cases k with
      | zero => simp only [updAt, List.getElem?_cons_zero]
      | succ k2 =>
        simp only [updAt, List.getElem?_cons_succ]
        exact ih j k2 (fun h => hk (by rw [h]))

/-- Reading back the heap cell just updated applies the update. -/
theorem updAt_getElem_eq {α : Type} (f : BNode α → BNode α) :
    ∀ (i : Nat) (s : List (BNode α)), i < s.length →
      (updAt i f s)[i]? = (s[i]?).map f := by
  intro i s
  induction s generalizing i with
  | nil => intro h; simp at h
  | cons n rest ih =>
    intro h
    cases i with
    | zero => simp [updAt]
    | succ j =>
      simp only [updAt, List.getElem?_cons_succ]
      exact ih j (by simpa using h)

/-- C10: the `BinaryTree` constructor writes the children array
directly and touches no existing heap record — in particular it never
sets the `parent` back-reference of the adopted `left`/`right` children
— and the freshly constructed node's own `parent` is unset; by
contrast, assigning a child through the `left` or `right` setter does
set that child's `parent` back-reference to the assigning node. -/
theorem constructor_no_backref_setters_set_backref {α : Type}
    (s : List (BNode α)) (v : α) (l r : Option Nat) (i j : Nat)
    (hj : j < s.length) :
    ((construct s v l r).1[j]? = s[j]?) ∧
    ((construct s v l r).1[s.length]? = some ⟨v, l, r, none⟩) ∧
    (∃ n, (setLeft s i (some j))[j]? = some n ∧ n.parent = some i) ∧
    (∃ n, (setRight s i (some j))[j]? = some n ∧ n.parent = some i) := by
  obtain ⟨n0, hn0⟩ : ∃ n0, s[j]? = some n0 :=
    ⟨s[j], List.getElem?_eq_getElem hj⟩
  refine ⟨List.getElem?_append_left hj, ?_, ?_, ?_⟩
  · simp [construct]
  · by_cases hij : i = j
    · subst hij
      refine ⟨{ n0 with parent := some i, left := some i }, ?_, rfl⟩
      show (updAt i (fun n => { n with left := some i })
        (updAt i (fun n => { n with parent := some i }) s))[i]? = _
      rw [updAt_getElem_eq _ i _ (by rw [updAt_length]; exact hj),
        updAt_getElem_eq _ i s hj, hn0]
      rfl
    · refine ⟨{ n0 with parent := some i }, ?_, rfl⟩
      show (updAt i (fun n => { n with left := some j })
        (updAt j (fun n => { n with parent := some i }) s))[j]? = _
      rw [updAt_getElem_ne _ i j _ (fun h => hij h.symm),
        updAt_getElem_eq _ j s hj, hn0]
      rfl
  · by_cases hij : i = j
    · subst hij
      refine ⟨{ n0 with parent := some i, right := some i }, ?_, rfl⟩
      show (updAt i (fun n => { n with right := some i })
        (updAt i (fun n => { n with parent := some i }) s))[i]? = _
      rw [updAt_getElem_eq _ i _ (by rw [updAt_length]; exact hj),
        updAt_getElem_eq _ i s hj, hn0]
      rfl
    · refine ⟨{ n0 with parent := some i }, ?_, rfl⟩
      show (updAt i (fun n => { n with right := some j })
        (updAt j (fun n => { n with parent := some i }) s))[j]? = _
      rw [updAt_getElem_ne _ i j _ (fun h => hij h.symm),
        updAt_getElem_eq _ j s hj, hn0]
      rfl

/-- Witness for C10 on a concrete two-record heap: constructing a node
adopting record 1 as left child leaves record 1 untouched, the new
record's parent is unset, and the setters do set record 1's parent. -/
theorem constructor_no_backref_witness :
    1 < exampleHeap.length ∧
    (((construct exampleHeap 30 (some 1) none).1[1]? = exampleHeap[1]?) ∧
     ((construct exampleHeap 30 (some 1) none).1[exampleHeap.length]? =
       some ⟨30, some 1, none, none⟩) ∧
     (∃ n, (setLeft exampleHeap 0 (some 1))[1]? = some n ∧
       n.parent = some 0) ∧
     (∃ n, (setRight exampleHeap 0 (some 1))[1]? = some n ∧
       n.parent = some 0)) :=
  ⟨by decide,
    constructor_no_backref_setters_set_backref exampleHeap 30 (some 1) none
      0 1 (by decide)⟩

end DS
